import Mathlib

/-!
Verification of the product-category predictor (`product_predictor/ml_model.py`).

The text-processing functions (`preprocess_text`, `correct_spelling`,
`get_spelling_suggestions`) are embedded directly.  The sentence-embedding
model and the similarity backend are external libraries; the predictor is
therefore parametrised over an abstract (fallible) encoder and an abstract
similarity function, while the concrete sklearn cosine-similarity formula
(row normalisation with a zero-norm guard, then dot product) is embedded
separately over the reals.  Python strings are modelled as Lean strings,
with character-level operations on the underlying `List Char`.
-/

namespace ProductPredictor

/-- Evaluation of `Char.toNat` after `Char.ofNat` at a valid codepoint. -/
theorem toNat_ofNat_valid (n : Nat) (h : n.isValidChar) : (Char.ofNat n).toNat = n := by
  simp only [Char.ofNat, h, dite_true]
  rfl

/-- Model of Python `str.lower` on one character (ASCII letters). -/
def lowerChar (c : Char) : Char :=
  if 65 ≤ c.toNat ∧ c.toNat ≤ 90 then Char.ofNat (c.toNat + 32) else c

theorem lowerChar_toNat (c : Char) (h : 65 ≤ c.toNat ∧ c.toNat ≤ 90) :
    (lowerChar c).toNat = c.toNat + 32 := by
  rw [lowerChar, if_pos h]
  exact toNat_ofNat_valid _ (Or.inl (by omega))

theorem lowerChar_idem (c : Char) : lowerChar (lowerChar c) = lowerChar c := by
  by_cases h : 65 ≤ c.toNat ∧ c.toNat ≤ 90
  · have ht := lowerChar_toNat c h
    rw [lowerChar, if_neg]
    omega
  · have hc : lowerChar c = c := by rw [lowerChar, if_neg h]
    rw [hc, hc]

/-- Model of Python whitespace (`str.isspace` / `str.split` separators). -/
def isWS (c : Char) : Bool :=
  c == ' ' || c == '\t' || c == '\n' || c == '\r' || c == '\x0B' || c == '\x0C'

/-- Python `str.split()` (no argument): split on whitespace runs, dropping
empty pieces.  `acc` holds the current in-progress token, reversed. -/
def tokensAux : List Char → List Char → List (List Char)
  | [], acc => if acc = [] then [] else [acc.reverse]
  | c :: cs, acc =>
    if isWS c then
      (if acc = [] then tokensAux cs [] else acc.reverse :: tokensAux cs [])
    else tokensAux cs (c :: acc)

def tokensC (l : List Char) : List (List Char) := tokensAux l []

/-- Python `' '.join`: concatenate the tokens with single spaces. -/
def joinC : List (List Char) → List Char
  | [] => []
  | [t] => t
  | t :: ts => t ++ ' ' :: joinC ts

/-- The fixed technical-term correction dictionary from
`ProductCategoryPredictor.__init__`. -/
def techCorrections : List (String × String) :=
  [("motr", "motor"), ("wasing", "washing"), ("machn", "machine"),
   ("pmp", "pump"), ("dishwshr", "dishwasher"), ("blwr", "blower"),
   ("heetr", "heater"), ("gyser", "geyser"), ("swich", "switch"),
   ("grndr", "grinder"), ("compresr", "compressor"), ("sensr", "sensor"),
   ("turbin", "turbine"), ("reley", "relay"), ("circut", "circuit"),
   ("invertr", "inverter"), ("modul", "module"), ("solr", "solar"),
   ("bearng", "bearing"), ("rollr", "roller"), ("actuatrr", "actuator"),
   ("dampr", "damper"), ("driv", "drive"), ("extruuder", "extruder"),
   ("couplng", "coupling"), ("bernr", "burner"), ("sytem", "system"),
   ("ctrl", "control"), ("bord", "board"), ("un", "unit"), ("fl", "unit")]

/-- Python `word in dict` / `dict[word]` over an association list. -/
def lookupTable : List (String × String) → String → Option String
  | [], _ => none
  | (k, v) :: rest, w => if w = k then some v else lookupTable rest w

/-- One token of `correct_spelling`: substitute via the table if present. -/
def corrTok (w : List Char) : List Char :=
  match lookupTable techCorrections (String.mk w) with
  | some v => v.data
  | none => w

/-- Model of `ProductCategoryPredictor.correct_spelling`: lowercase, split on
whitespace, substitute each token via the table, rejoin with single
spaces. -/
def correct_spelling (query : String) : String :=
  String.mk (joinC ((tokensC (query.data.map lowerChar)).map corrTok))

/-- The suggestion string `"'<w>' might be '<v>'"` (apostrophes escaped). -/
def fmtSuggestion (w : List Char) (v : String) : String :=
  "\x27" ++ String.mk w ++ "\x27 might be \x27" ++ v ++ "\x27"

/-- Model of `ProductCategoryPredictor.get_spelling_suggestions`: loop over the
lowercased tokens, appending one suggestion per token found in the table
whose corrected form differs. -/
def get_spelling_suggestions (query : String) : List String :=
  (tokensC (query.data.map lowerChar)).foldl
    (fun acc w =>
      match lookupTable techCorrections (String.mk w) with
      | some v => if String.mk w ≠ v then acc ++ [fmtSuggestion w v] else acc
      | none => acc)
    []

/-- The character class kept by `re.sub(r'[^a-zA-Z0-9\s]', ' ', text)`. -/
def keepChar (c : Char) : Bool :=
  (97 ≤ c.toNat && c.toNat ≤ 122) || (65 ≤ c.toNat && c.toNat ≤ 90) ||
  (48 ≤ c.toNat && c.toNat ≤ 57) || isWS c

/-- One character of the `re.sub` replacement. -/
def subChar (c : Char) : Char := if keepChar c then c else ' '

/-- Python `str.strip()`: drop leading and trailing whitespace. -/
def stripC (l : List Char) : List Char :=
  ((l.dropWhile (fun c => isWS c)).reverse.dropWhile (fun c => isWS c)).reverse

/-- Model of `ProductCategoryPredictor.preprocess_text`: lowercase, replace every
character outside `[a-zA-Z0-9\s]` by a space, strip. -/
def preprocess_text (text : String) : String :=
  String.mk (stripC ((text.data.map lowerChar).map subChar))

/-- Python `str.strip` on a string (used by `predict_multiple`). -/
def pyStrip (s : String) : String := String.mk (stripC s.data)

/-- One deduplicated row of `self.categories` (`category_id`, `name`). -/
structure CategoryEntry where
  category_id : Int
  name : String
deriving DecidableEq, Repr

/-- The dictionary returned by `predict_category`. -/
structure PredictionResult where
  original_query : String
  used_query : String
  synonym : String
  predictedCatId : Option Int
  predictedCatName : String
  confidenceScore : ℚ
  spelling_suggestions : List String
deriving DecidableEq, Repr

/-- Model of `numpy.argmax` together with the value at that index: first index
attaining the maximum, `none` on an empty array (where numpy raises). -/
def argmaxAux {α : Type} [LinearOrder α] : List α → Option (Nat × α)
  | [] => none
  | x :: xs =>
    match argmaxAux xs with
    | none => some (0, x)
    | some (j, v) => if x < v then some (j + 1, v) else some (0, x)

/-- The predictor state built in `__init__`/`_setup_model`.  The external
sentence-embedding model and the similarity backend are abstract: `encode`
may fail (any exception is caught by `predict_category`), `sim` scores a
query embedding against one catalog embedding. -/
structure Predictor where
  categories : List CategoryEntry
  categoryEmbeddings : List (List ℚ)
  encode : String → Option (List ℚ)
  sim : List ℚ → List ℚ → ℚ

/-- The result built by the `except` branch of `predict_category`. -/
def sentinelResult (description : String) : PredictionResult :=
  { original_query := description, used_query := description,
    synonym := description, predictedCatId := none,
    predictedCatName := "Unknown", confidenceScore := 0,
    spelling_suggestions := [] }

/-- The `try` block of `predict_category`: `none` models an exception at
one of the fallible steps (encoding, `argmax` of an empty similarity
array, or an out-of-range `iloc`). -/
def runPipeline (P : Predictor) (description : String) : Option PredictionResult :=
  let suggestions := get_spelling_suggestions description
  let corrected := correct_spelling description
  let used := if corrected ≠ description then corrected else description
  let processed := preprocess_text used
  match P.encode processed with
  | none => none
  | some q =>
    let sims := P.categoryEmbeddings.map (P.sim q)
    match argmaxAux sims with
    | none => none
    | some (bestIdx, bestScore) =>
      match P.categories[bestIdx]? with
      | none => none
      | some entry =>
        some { original_query := description, used_query := used,
               synonym := used, predictedCatId := some entry.category_id,
               predictedCatName := entry.name, confidenceScore := bestScore,
               spelling_suggestions := suggestions }

/-- Model of `ProductCategoryPredictor.predict_category`: the `try` block, with the
sentinel result on any exception. -/
def predict_category (P : Predictor) (description : String) : PredictionResult :=
  (runPipeline P description).getD (sentinelResult description)

/-- Model of `ProductCategoryPredictor.predict_multiple`: loop appending
`predict_category(desc.strip())` for each description. -/
def predict_multiple (P : Predictor) (descriptions : List String) : List PredictionResult :=
  descriptions.foldl (fun results desc => results ++ [predict_category P (pyStrip desc)]) []

/-- Dot product of two rows, as computed by the numeric backend. -/
def dotR (u v : List ℝ) : ℝ := (List.zipWith (· * ·) u v).sum

/-- Euclidean norm of a row. -/
noncomputable def normR (u : List ℝ) : ℝ := Real.sqrt (dotR u u)

/-- sklearn row normalisation: rows with zero norm are divided by `1`
instead (the zero-norm guard of `sklearn.preprocessing.normalize`). -/
noncomputable def normalizeRow (u : List ℝ) : List ℝ :=
  u.map (· / (if normR u = 0 then 1 else normR u))

/-- Model of `sklearn.metrics.pairwise.cosine_similarity` on one pair of rows:
normalise both rows, then take the dot product. -/
noncomputable def cosineSimR (u v : List ℝ) : ℝ := dotR (normalizeRow u) (normalizeRow v)

theorem tokensAux_mem (l : List Char) :
    ∀ acc, (∀ c ∈ acc, isWS c = false) →
      ∀ t ∈ tokensAux l acc, t ≠ [] ∧ ∀ c ∈ t, isWS c = false ∧ (c ∈ acc ∨ c ∈ l) := by
  induction l with
  | nil =>
    intro acc hacc t ht
    rw [tokensAux] at ht
    by_cases h : acc = []
    · simp [h] at ht
    · simp only [h, if_neg, ite_false] at ht
      simp only [List.mem_singleton] at ht
      subst ht
      refine ⟨by simpa using h, ?_⟩
      intro c hc
      rw [List.mem_reverse] at hc
      exact ⟨hacc c hc, Or.inl hc⟩
  | cons a as ih =>
    intro acc hacc t ht
    rw [tokensAux] at ht
    by_cases hws : isWS a
    · rw [if_pos hws] at ht
      by_cases h : acc = []
      · rw [if_pos h] at ht
        have := ih [] (by simp) t ht
        exact ⟨this.1, fun c hc => ⟨(this.2 c hc).1, by
          rcases (this.2 c hc).2 with h1 | h1
          · simp at h1
          · exact Or.inr (List.mem_cons_of_mem _ h1)⟩⟩
      · rw [if_neg h] at ht
        rcases List.mem_cons.mp ht with rfl | ht2
        · refine ⟨by simpa using h, ?_⟩
          intro c hc
          rw [List.mem_reverse] at hc
          exact ⟨hacc c hc, Or.inl hc⟩
        · have := ih [] (by simp) t ht2
          exact ⟨this.1, fun c hc => ⟨(this.2 c hc).1, by
            rcases (this.2 c hc).2 with h1 | h1
            · simp at h1
            · exact Or.inr (List.mem_cons_of_mem _ h1)⟩⟩
    · rw [if_neg hws] at ht
      have hacc2 : ∀ c ∈ a :: acc, isWS c = false := by
        intro c hc
        rcases List.mem_cons.mp hc with rfl | hc2
        · simpa using hws
        · exact hacc c hc2
      have := ih (a :: acc) hacc2 t ht
      refine ⟨this.1, fun c hc => ⟨(this.2 c hc).1, ?_⟩⟩
      rcases (this.2 c hc).2 with h1 | h1
      · rcases List.mem_cons.mp h1 with rfl | h2
        · exact Or.inr (List.mem_cons_self _ _)
        · exact Or.inl h2
      · exact Or.inr (List.mem_cons_of_mem _ h1)

theorem tokensC_mem (l : List Char) :
    ∀ t ∈ tokensC l, t ≠ [] ∧ ∀ c ∈ t, isWS c = false ∧ c ∈ l := by
  intro t ht
  have := tokensAux_mem l [] (by simp) t ht
  exact ⟨this.1, fun c hc => ⟨(this.2 c hc).1, by
    rcases (this.2 c hc).2 with h1 | h1
    · simp at h1
    · exact h1⟩⟩

theorem tokensAux_append (t : List Char) (ht : ∀ c ∈ t, isWS c = false) :
    ∀ l acc, tokensAux (t ++ l) acc = tokensAux l (t.reverse ++ acc) := by
  induction t with
  | nil => intro l acc; simp
  | cons a as ih =>
    intro l acc
    have hws : isWS a = false := ht a (List.mem_cons_self _ _)
    have has : ∀ c ∈ as, isWS c = false := fun c hc => ht c (List.mem_cons_of_mem _ hc)
    rw [List.cons_append, tokensAux, if_neg (by simp [hws]), ih has]
    simp

theorem tokens_join (ts : List (List Char))
    (h : ∀ t ∈ ts, t ≠ [] ∧ ∀ c ∈ t, isWS c = false) :
    tokensC (joinC ts) = ts := by
  induction ts with
  | nil => rfl
  | cons t ts2 ih =>
    rcases h t (List.mem_cons_self _ _) with ⟨hne, hwf⟩
    cases ts2 with
    | nil =>
      show tokensAux (joinC [t]) [] = [t]
      rw [joinC]
      rw [show t = t ++ [] from (List.append_nil t).symm] at hne ⊢
      rw [tokensAux_append _ (by simpa using hwf)]
      rw [tokensAux]
      rw [if_neg (by simpa using hne)]
      simp
    | cons t2 ts3 =>
      have hj : joinC (t :: t2 :: ts3) = t ++ ' ' :: joinC (t2 :: ts3) := rfl
      show tokensAux (joinC (t :: t2 :: ts3)) [] = t :: t2 :: ts3
      rw [hj, tokensAux_append _ hwf, tokensAux]
      rw [if_pos (by decide), if_neg (by simpa using hne)]
      have := ih (fun u hu => h u (List.mem_cons_of_mem _ hu))
      rw [show tokensAux (joinC (t2 :: ts3)) [] = tokensC (joinC (t2 :: ts3)) from rfl, this]
      simp

theorem lookupTable_mem {tbl : List (String × String)} {w v : String}
    (h : lookupTable tbl w = some v) : (w, v) ∈ tbl := by
  induction tbl with
  | nil => simp [lookupTable] at h
  | cons p rest ih =>
    obtain ⟨k, u⟩ := p
    rw [lookupTable] at h
    by_cases hw : w = k
    · rw [if_pos hw] at h
      obtain rfl := Option.some_injective _ h
      exact hw ▸ List.mem_cons_self _ _
    · rw [if_neg hw] at h
      exact List.mem_cons_of_mem _ (ih h)

/-- Facts about the fixed table, checked by computation: every corrected
form is nonempty, whitespace-free, lowercase-fixed, and not itself a key. -/
theorem techCorrections_vals :
    ∀ p ∈ techCorrections,
      (p.2.data ≠ [] ∧ ∀ c ∈ p.2.data, isWS c = false ∧ lowerChar c = c) ∧
      lookupTable techCorrections p.2 = none := by
  decide

theorem corrTok_keeps (w : List Char) (hne : w ≠ [])
    (hwf : ∀ c ∈ w, isWS c = false) (hlo : ∀ c ∈ w, lowerChar c = c) :
    corrTok w ≠ [] ∧ ∀ c ∈ corrTok w, isWS c = false ∧ lowerChar c = c := by
  rw [corrTok]
  cases h : lookupTable techCorrections (String.mk w) with
  | none => exact ⟨hne, fun c hc => ⟨hwf c hc, hlo c hc⟩⟩
  | some v =>
    have hm := lookupTable_mem h
    have := (techCorrections_vals _ hm).1
    exact ⟨this.1, this.2⟩

theorem corrTok_idem (w : List Char) : corrTok (corrTok w) = corrTok w := by
  cases h : lookupTable techCorrections (String.mk w) with
  | none =>
    have hw : corrTok w = w := by rw [corrTok, h]
    rw [hw]
    exact hw
  | some v =>
    have hw : corrTok w = v.data := by rw [corrTok, h]
    have hv : lookupTable techCorrections v = none :=
      (techCorrections_vals _ (lookupTable_mem h)).2
    rw [hw, corrTok, show String.mk v.data = v from rfl, hv]

/-- The tokens produced inside `correct_spelling` are nonempty,
whitespace-free and lowercase-fixed. -/
theorem cs_tokens_good (q : String) :
    ∀ t ∈ (tokensC (q.data.map lowerChar)).map corrTok,
      t ≠ [] ∧ ∀ c ∈ t, isWS c = false ∧ lowerChar c = c := by
  intro t ht
  rw [List.mem_map] at ht
  obtain ⟨w, hw, rfl⟩ := ht
  have hmem := tokensC_mem _ w hw
  have hlo : ∀ c ∈ w, lowerChar c = c := by
    intro c hc
    have := (hmem.2 c hc).2
    rw [List.mem_map] at this
    obtain ⟨a, _, rfl⟩ := this
    exact lowerChar_idem a
  exact corrTok_keeps w hmem.1 (fun c hc => (hmem.2 c hc).1) hlo

theorem joinC_mem {c : Char} :
    ∀ ts : List (List Char), c ∈ joinC ts → c = ' ' ∨ ∃ t ∈ ts, c ∈ t := by
  intro ts
  induction ts with
  | nil => intro h; simp [joinC] at h
  | cons t ts2 ih =>
    intro h
    cases ts2 with
    | nil =>
      rw [joinC] at h
      exact Or.inr ⟨t, List.mem_cons_self _ _, h⟩
    | cons t2 ts3 =>
      rw [show joinC (t :: t2 :: ts3) = t ++ ' ' :: joinC (t2 :: ts3) from rfl] at h
      rw [List.mem_append] at h
      rcases h with h | h
      · exact Or.inr ⟨t, List.mem_cons_self _ _, h⟩
      · rcases List.mem_cons.mp h with rfl | h2
        · exact Or.inl rfl
        · rcases ih h2 with h3 | ⟨u, hu, hcu⟩
          · exact Or.inl h3
          · exact Or.inr ⟨u, List.mem_cons_of_mem _ hu, hcu⟩

/-- The output of `correct_spelling` is fixed by lowercasing. -/
theorem cs_lower_fixed (q : String) :
    (correct_spelling q).data.map lowerChar = (correct_spelling q).data := by
  have : (correct_spelling q).data.map lowerChar = (correct_spelling q).data.map id := by
    apply List.map_congr_left
    intro c hc
    show lowerChar c = c
    have hc2 : c ∈ joinC ((tokensC (q.data.map lowerChar)).map corrTok) := hc
    rcases joinC_mem _ hc2 with rfl | ⟨t, ht, hct⟩
    · decide
    · exact ((cs_tokens_good q t ht).2 c hct).2
  rw [this, List.map_id]

/-- Re-tokenising the output of `correct_spelling` recovers its tokens. -/
theorem cs_retokenize (q : String) :
    tokensC (correct_spelling q).data = (tokensC (q.data.map lowerChar)).map corrTok := by
  apply tokens_join
  intro t ht
  have := cs_tokens_good q t ht
  exact ⟨this.1, fun c hc => (this.2 c hc).1⟩

theorem dropWhile_head_false {p : Char → Bool} :
    ∀ l : List Char, ∀ c, (l.dropWhile p).head? = some c → p c = false := by
  intro l
  induction l with
  | nil => intro c h; simp [List.dropWhile] at h
  | cons a as ih =>
    intro c h
    rw [List.dropWhile] at h
    cases hp : p a with
    | true =>
      rw [hp] at h
      exact ih c h
    | false =>
      rw [hp] at h
      simp only [List.head?_cons, Option.some_inj] at h
      subst h
      exact hp

theorem dropWhile_of_head_false {p : Char → Bool} {l : List Char}
    (h : ∀ c, l.head? = some c → p c = false) : l.dropWhile p = l := by
  cases l with
  | nil => rfl
  | cons a as =>
    rw [List.dropWhile, h a rfl]

theorem getLast_of_dropWhile {p : Char → Bool} {m : List Char} {c : Char}
    (h : (m.dropWhile p).getLast? = some c) : m.getLast? = some c := by
  have hsuf : m.dropWhile p <:+ m := List.dropWhile_suffix p
  obtain ⟨t, ht⟩ := hsuf
  have hne : m.dropWhile p ≠ [] := by
    intro hnil
    rw [hnil] at h
    simp at h
  rw [← ht]
  exact (List.getLast?_append_of_ne_nil t hne).trans h

theorem stripC_head {l : List Char} {c : Char} (h : (stripC l).head? = some c) :
    isWS c = false := by
  rw [stripC, List.head?_reverse] at h
  have h2 := getLast_of_dropWhile h
  rw [List.getLast?_reverse] at h2
  exact dropWhile_head_false _ c h2

theorem stripC_getLast {l : List Char} {c : Char} (h : (stripC l).getLast? = some c) :
    isWS c = false := by
  rw [stripC, List.getLast?_reverse] at h
  exact dropWhile_head_false _ c h

theorem stripC_idem (l : List Char) : stripC (stripC l) = stripC l := by
  have hs : stripC l = ((l.dropWhile (fun c => isWS c)).reverse.dropWhile (fun c => isWS c)).reverse := rfl
  rw [stripC]
  rw [dropWhile_of_head_false (fun c hc => stripC_head hc)]
  rw [hs, List.reverse_reverse]
  rw [dropWhile_of_head_false (fun c hc => dropWhile_head_false _ c hc)]

theorem mem_stripC {c : Char} {l : List Char} (h : c ∈ stripC l) : c ∈ l := by
  rw [stripC, List.mem_reverse] at h
  have h1 := (List.dropWhile_sublist _).subset h
  rw [List.mem_reverse] at h1
  exact (List.dropWhile_sublist _).subset h1

theorem keepChar_subChar (c : Char) : keepChar (subChar c) = true := by
  rw [subChar]
  by_cases h : keepChar c
  · rw [if_pos h]; exact h
  · rw [if_neg h]; decide

theorem subChar_of_keep {c : Char} (h : keepChar c = true) : subChar c = c := by
  rw [subChar, if_pos h]

theorem lowerChar_subChar_lowerChar (c : Char) :
    lowerChar (subChar (lowerChar c)) = subChar (lowerChar c) := by
  rw [subChar]
  by_cases h : keepChar (lowerChar c)
  · rw [if_pos h]
    exact lowerChar_idem c
  · rw [if_neg h]
    decide

/-- Every character of a cleaned string is kept by the character class and
fixed by lowercasing. -/
theorem preprocess_chars (x : String) :
    ∀ c ∈ (preprocess_text x).data, keepChar c = true ∧ lowerChar c = c := by
  intro c hc
  have hc2 : c ∈ stripC ((x.data.map lowerChar).map subChar) := hc
  have hc3 := mem_stripC hc2
  rw [List.map_map, List.mem_map] at hc3
  obtain ⟨a, _, rfl⟩ := hc3
  exact ⟨keepChar_subChar _, lowerChar_subChar_lowerChar a⟩

/-- C7: `clean` is idempotent: for every string `x`,
`clean(clean(x)) = clean(x)`, where `clean` lowercases, replaces every
character outside lowercase letters, digits and whitespace with a space,
and trims leading/trailing whitespace (`preprocess_text`). -/
theorem preprocess_text_idem (x : String) :
    preprocess_text (preprocess_text x) = preprocess_text x := by
  have hfix := preprocess_chars x
  show String.mk (stripC (((preprocess_text x).data.map lowerChar).map subChar))
      = preprocess_text x
  have h1 : (preprocess_text x).data.map lowerChar = (preprocess_text x).data := by
    have : (preprocess_text x).data.map lowerChar = (preprocess_text x).data.map id :=
      List.map_congr_left (fun a ha => (hfix a ha).2)
    rw [this, List.map_id]
  have h2 : (preprocess_text x).data.map subChar = (preprocess_text x).data := by
    have : (preprocess_text x).data.map subChar = (preprocess_text x).data.map id :=
      List.map_congr_left (fun a ha => subChar_of_keep (hfix a ha).1)
    rw [this, List.map_id]
  rw [h1, h2]
  show String.mk (stripC (stripC ((x.data.map lowerChar).map subChar))) = preprocess_text x
  rw [stripC_idem]
  rfl

/-- C6: `correctSpelling` is idempotent: applying `correct_spelling` twice
yields the same string as applying it once, for the fixed built-in
correction table (no corrected form in the table is itself a key). -/
theorem correct_spelling_idem (q : String) :
    correct_spelling (correct_spelling q) = correct_spelling q := by
  show String.mk (joinC ((tokensC ((correct_spelling q).data.map lowerChar)).map corrTok))
      = correct_spelling q
  rw [cs_lower_fixed, cs_retokenize, List.map_map]
  have h : (tokensC (q.data.map lowerChar)).map (corrTok ∘ corrTok)
      = (tokensC (q.data.map lowerChar)).map corrTok :=
    List.map_congr_left (fun w _ => corrTok_idem w)
  rw [h]
  rfl

/-- Shape of a successful `predict_category` run. -/
theorem runPipeline_some {P : Predictor} {d : String} {r : PredictionResult}
    (h : runPipeline P d = some r) :
    r.original_query = d ∧ r.used_query = correct_spelling d ∧
    r.spelling_suggestions = get_spelling_suggestions d ∧
    ∃ (i : Nat) (e : CategoryEntry), P.categories[i]? = some e ∧
      r.predictedCatId = some e.category_id ∧ r.predictedCatName = e.name := by
  simp only [runPipeline] at h
  cases hq : P.encode (preprocess_text (if correct_spelling d ≠ d then correct_spelling d else d)) with
  | none =>
    rw [hq] at h
    simp at h
  | some qe =>
    rw [hq] at h
    simp only [] at h
    cases ha : argmaxAux (P.categoryEmbeddings.map (P.sim qe)) with
    | none =>
      rw [ha] at h
      simp at h
    | some pair =>
      obtain ⟨bestIdx, bestScore⟩ := pair
      rw [ha] at h
      simp only [] at h
      cases he : P.categories[bestIdx]? with
      | none =>
        rw [he] at h
        simp at h
      | some entry =>
        rw [he] at h
        simp only [Option.some_inj] at h
        subst h
        refine ⟨rfl, ?_, rfl, bestIdx, entry, he, rfl, rfl⟩
        show (if correct_spelling d ≠ d then correct_spelling d else d) = correct_spelling d
        by_cases hc : correct_spelling d ≠ d
        · rw [if_pos hc]
        · rw [if_neg hc]
          push_neg at hc
          exact hc.symm

theorem argmaxAux_eq_none {α : Type} [LinearOrder α] {l : List α} :
    argmaxAux l = none ↔ l = [] := by
  cases l with
  | nil => simp [argmaxAux]
  | cons x xs =>
    rw [argmaxAux]
    cases argmaxAux xs with
    | none => simp
    | some p =>
      obtain ⟨j, v⟩ := p
      show (if x < v then some (j + 1, v) else some (0, x)) = none ↔ x :: xs = []
      by_cases h : x < v
      · rw [if_pos h]; simp
      · rw [if_neg h]; simp

theorem argmaxAux_spec {α : Type} [LinearOrder α] :
    ∀ (l : List α) (i : Nat) (v : α), argmaxAux l = some (i, v) →
      l[i]? = some v ∧ (∀ (j : Nat) (w : α), l[j]? = some w → w ≤ v) ∧
      (∀ (j : Nat) (w : α), j < i → l[j]? = some w → w < v) := by
  intro l
  induction l with
  | nil => intro i v h; simp [argmaxAux] at h
  | cons x xs ih =>
    intro i v h
    rw [argmaxAux] at h
    cases hx : argmaxAux xs with
    | none =>
      have hnil : xs = [] := argmaxAux_eq_none.mp hx
      rw [hx] at h
      have h2 : some (0, x) = some (i, v) := h
      simp only [Option.some_inj, Prod.mk.injEq] at h2
      obtain ⟨rfl, rfl⟩ := h2
      subst hnil
      refine ⟨rfl, ?_, ?_⟩
      · intro j w hj
        cases j with
        | zero => simp at hj; simp [hj]
        | succ k => simp at hj
      · intro j w hj
        omega
    | some p =>
      obtain ⟨j0, w0⟩ := p
      rw [hx] at h
      have h2 : (if x < w0 then some (j0 + 1, w0) else some (0, x)) = some (i, v) := h
      obtain ⟨hget, hmax, hfirst⟩ := ih j0 w0 hx
      by_cases hlt : x < w0
      · rw [if_pos hlt] at h2
        simp only [Option.some_inj, Prod.mk.injEq] at h2
        obtain ⟨rfl, rfl⟩ := h2
        refine ⟨by simpa using hget, ?_, ?_⟩
        · intro j w hj
          cases j with
          | zero =>
            simp only [List.getElem?_cons_zero, Option.some_inj] at hj
            subst hj
            exact le_of_lt hlt
          | succ k =>
            rw [List.getElem?_cons_succ] at hj
            exact hmax k w hj
        · intro j w hj hjw
          cases j with
          | zero =>
            simp only [List.getElem?_cons_zero, Option.some_inj] at hjw
            subst hjw
            exact hlt
          | succ k =>
            rw [List.getElem?_cons_succ] at hjw
            exact hfirst k w (by omega) hjw
      · rw [if_neg hlt] at h2
        simp only [Option.some_inj, Prod.mk.injEq] at h2
        obtain ⟨rfl, rfl⟩ := h2
        push_neg at hlt
        refine ⟨by simp, ?_, ?_⟩
        · intro j w hj
          cases j with
          | zero =>
            simp only [List.getElem?_cons_zero, Option.some_inj] at hj
            exact le_of_eq hj.symm
          | succ k =>
            rw [List.getElem?_cons_succ] at hj
            exact le_trans (hmax k w hj) hlt
        · intro j w hj
          omega

theorem argmaxAux_const {α : Type} [LinearOrder α] :
    ∀ (l : List α) (c : α), l ≠ [] → (∀ x ∈ l, x = c) → argmaxAux l = some (0, c) := by
  intro l
  induction l with
  | nil => intro c h; exact absurd rfl h
  | cons x xs ih =>
    intro c _ hall
    have hx : x = c := hall x (List.mem_cons_self _ _)
    cases xs with
    | nil =>
      subst hx
      rfl
    | cons y ys =>
      have hxs := ih c (by simp) (fun z hz => hall z (List.mem_cons_of_mem _ hz))
      have h2 : argmaxAux (x :: y :: ys) = (if x < c then some (0 + 1, c) else some (0, x)) := by
        rw [argmaxAux, hxs]
      rw [h2, if_neg (by simp [hx]), hx]

theorem foldl_append_map {α β : Type} (f : α → β) :
    ∀ (l : List α) (acc : List β),
      l.foldl (fun rs d => rs ++ [f d]) acc = acc ++ l.map f := by
  intro l
  induction l with
  | nil => intro acc; simp
  | cons a as ih => intro acc; rw [List.foldl_cons, ih]; simp

theorem dotR_zero_left {u : List ℝ} (hu : ∀ x ∈ u, x = 0) :
    ∀ v : List ℝ, dotR u v = 0 := by
  induction u with
  | nil => intro v; simp [dotR]
  | cons x xs ih =>
    intro v
    cases v with
    | nil => simp [dotR]
    | cons y ys =>
      have hx : x = 0 := hu x (List.mem_cons_self _ _)
      have hstep : dotR (x :: xs) (y :: ys) = x * y + dotR xs ys := by
        simp [dotR]
      rw [hstep, hx, zero_mul, zero_add]
      exact ih (fun z hz => hu z (List.mem_cons_of_mem _ hz)) ys

theorem dotR_zero_right {u : List ℝ} (hu : ∀ x ∈ u, x = 0) :
    ∀ v : List ℝ, dotR v u = 0 := by
  induction u with
  | nil => intro v; cases v <;> simp [dotR]
  | cons x xs ih =>
    intro v
    cases v with
    | nil => simp [dotR]
    | cons y ys =>
      have hx : x = 0 := hu x (List.mem_cons_self _ _)
      have hstep : dotR (y :: ys) (x :: xs) = y * x + dotR ys xs := by
        simp [dotR]
      rw [hstep, hx, mul_zero, zero_add]
      exact ih (fun z hz => hu z (List.mem_cons_of_mem _ hz)) ys

theorem normalizeRow_zero {u : List ℝ} (hu : ∀ x ∈ u, x = 0) :
    normalizeRow u = u := by
  rw [normalizeRow]
  have h : u.map (· / (if normR u = 0 then 1 else normR u)) = u.map id :=
    List.map_congr_left (fun x hx => by rw [hu x hx]; exact zero_div _)
  rw [h, List.map_id]

theorem cosineSimR_zero_left {u : List ℝ} (hu : ∀ x ∈ u, x = 0) (v : List ℝ) :
    cosineSimR u v = 0 := by
  rw [cosineSimR, normalizeRow_zero hu]
  exact dotR_zero_left hu _

theorem cosineSimR_zero_right {u : List ℝ} (hu : ∀ x ∈ u, x = 0) (v : List ℝ) :
    cosineSimR v u = 0 := by
  rw [cosineSimR, normalizeRow_zero hu]
  exact dotR_zero_right hu _

/-- Per-token suggestion, as the specification describes it: a key of the
table whose corrected form differs yields the formatted string. -/
def suggOpt (w : List Char) : Option String :=
  match lookupTable techCorrections (String.mk w) with
  | some v => if String.mk w ≠ v then some (fmtSuggestion w v) else none
  | none => none

theorem sugg_foldl_aux :
    ∀ (ts : List (List Char)) (acc : List String),
      ts.foldl (fun acc w =>
          match lookupTable techCorrections (String.mk w) with
          | some v => if String.mk w ≠ v then acc ++ [fmtSuggestion w v] else acc
          | none => acc) acc
        = acc ++ ts.filterMap suggOpt := by
  intro ts
  induction ts with
  | nil => intro acc; simp
  | cons w ws ih =>
    intro acc
    rw [List.foldl_cons, ih, List.filterMap_cons]
    cases hl : lookupTable techCorrections (String.mk w) with
    | none =>
      have hs : suggOpt w = none := by rw [suggOpt, hl]
      rw [hs]
    | some v =>
      by_cases hne : String.mk w ≠ v
      · have hs : suggOpt w = some (fmtSuggestion w v) := by
          rw [suggOpt, hl]
          exact if_pos hne
        rw [hs]
        show (if String.mk w ≠ v then acc ++ [fmtSuggestion w v] else acc)
            ++ List.filterMap suggOpt ws
          = acc ++ (fmtSuggestion w v :: List.filterMap suggOpt ws)
        rw [if_pos hne]
        simp
      · have hs : suggOpt w = none := by
          rw [suggOpt, hl]
          exact if_neg hne
        rw [hs]
        show (if String.mk w ≠ v then acc ++ [fmtSuggestion w v] else acc)
            ++ List.filterMap suggOpt ws
          = acc ++ List.filterMap suggOpt ws
        rw [if_neg hne]

/-- A concrete predictor used to instantiate the theorems: two catalog
entries, a total encoder, similarity = head of the catalog embedding. -/
def Ptest : Predictor :=
  { categories := [⟨1, "Water Pump"⟩, ⟨2, "Washing Machine"⟩],
    categoryEmbeddings := [[1], [2]],
    encode := fun _ => some [1],
    sim := fun _ v => v.headD 0 }

/-- A concrete predictor whose encoder always fails. -/
def Pfail : Predictor :=
  { categories := [⟨1, "Water Pump"⟩],
    categoryEmbeddings := [[1]],
    encode := fun _ => none,
    sim := fun _ _ => 0 }

/-- C1 counterexample: `predict_multiple` strips each description first, so
for a description with surrounding whitespace the batch result differs from
the plain per-item result (`original_query` is the stripped string). -/
theorem predict_multiple_ne_map :
    predict_multiple Ptest [" motr "] ≠ [" motr "].map (predict_category Ptest) := by
  decide

/-- C1 (amended): `predict_multiple` equals element-wise
`predict_category` applied to each description stripped of leading and
trailing whitespace; it agrees with plain element-wise `predict_category`
exactly when every description is already stripped. -/
theorem predict_multiple_eq_map_strip (P : Predictor) (ds : List String) :
    predict_multiple P ds = ds.map (fun d => predict_category P (pyStrip d)) ∧
    ((∀ d ∈ ds, pyStrip d = d) →
      predict_multiple P ds = ds.map (predict_category P)) := by
  have h1 : predict_multiple P ds = ds.map (fun d => predict_category P (pyStrip d)) := by
    have h := foldl_append_map (fun d => predict_category P (pyStrip d)) ds []
    simpa [predict_multiple] using h
  refine ⟨h1, fun hs => h1.trans ?_⟩
  apply List.map_congr_left
  intro d hd
  rw [hs d hd]

theorem predict_multiple_eq_map_strip_witness :
    predict_multiple Ptest ["motr"] = ["motr"].map (predict_category Ptest) :=
  (predict_multiple_eq_map_strip Ptest ["motr"]).2 (by decide)

/-- C2: whenever any step of the prediction pipeline fails,
`predict_category` returns the sentinel failure result: name exactly
`"Unknown"`, id absent, confidence exactly `0`, empty suggestions (and, as
a total function, it never propagates the failure). -/
theorem predict_failure_sentinel (P : Predictor) (d : String)
    (h : runPipeline P d = none) :
    predict_category P d = sentinelResult d ∧
    (predict_category P d).predictedCatName = "Unknown" ∧
    (predict_category P d).predictedCatId = none ∧
    (predict_category P d).confidenceScore = 0 ∧
    (predict_category P d).spelling_suggestions = [] := by
  have h1 : predict_category P d = sentinelResult d := by
    rw [predict_category, h]
    rfl
  rw [h1]
  exact ⟨rfl, rfl, rfl, rfl, rfl⟩

theorem predict_failure_sentinel_witness :
    predict_category Pfail "broken" = sentinelResult "broken" ∧
    (predict_category Pfail "broken").predictedCatName = "Unknown" ∧
    (predict_category Pfail "broken").predictedCatId = none ∧
    (predict_category Pfail "broken").confidenceScore = 0 ∧
    (predict_category Pfail "broken").spelling_suggestions = [] :=
  predict_failure_sentinel Pfail "broken" (by rfl)

/-- C3: on every successful run, the `used_query` field equals
`correct_spelling` of the input — the conditional assignment in the source
is extensionally the corrected form, also when correction changed
nothing. -/
theorem predict_success_used_query (P : Predictor) (d : String)
    (h : (runPipeline P d).isSome) :
    (predict_category P d).used_query = correct_spelling d := by
  obtain ⟨r, hr⟩ := Option.isSome_iff_exists.mp h
  rw [predict_category, hr]
  exact (runPipeline_some hr).2.1

theorem predict_success_used_query_witness :
    (predict_category Ptest " MOTR ").used_query = correct_spelling " MOTR " :=
  predict_success_used_query Ptest " MOTR " (by decide)

/-- C4: for every non-empty input, the result's id/name pair is one valid
catalog entry (both fields from the same index), or exactly the sentinel
pair (id absent, name `"Unknown"`) — never mismatched. -/
theorem predict_result_pair_valid (P : Predictor) (d : String) (hd : d ≠ "") :
    (∃ (i : Nat) (e : CategoryEntry), P.categories[i]? = some e ∧
        (predict_category P d).predictedCatId = some e.category_id ∧
        (predict_category P d).predictedCatName = e.name) ∨
    ((predict_category P d).predictedCatId = none ∧
        (predict_category P d).predictedCatName = "Unknown") := by
  cases hr : runPipeline P d with
  | none =>
    right
    rw [predict_category, hr]
    exact ⟨rfl, rfl⟩
  | some r =>
    left
    obtain ⟨-, -, -, i, e, he, hid, hname⟩ := runPipeline_some hr
    rw [predict_category, hr]
    exact ⟨i, e, he, hid, hname⟩

theorem predict_result_pair_valid_witness :
    (∃ (i : Nat) (e : CategoryEntry), Ptest.categories[i]? = some e ∧
        (predict_category Ptest "motr").predictedCatId = some e.category_id ∧
        (predict_category Ptest "motr").predictedCatName = e.name) ∨
    ((predict_category Ptest "motr").predictedCatId = none ∧
        (predict_category Ptest "motr").predictedCatName = "Unknown") :=
  predict_result_pair_valid Ptest "motr" (by decide)

/-- C5: for every query vector and non-empty catalog, the argmax over the
similarity scores returns the smallest index attaining the maximum score:
every index has score at most the selected one, and every strictly smaller
index has a strictly smaller score. -/
theorem bestMatch_first_max (sim : List ℚ → List ℚ → ℚ) (q : List ℚ)
    (vecs : List (List ℚ)) (hne : vecs ≠ []) :
    ∃ (i : Nat) (v : ℚ), argmaxAux (vecs.map (sim q)) = some (i, v) ∧
      (vecs.map (sim q))[i]? = some v ∧
      (∀ (j : Nat) (w : ℚ), (vecs.map (sim q))[j]? = some w → w ≤ v) ∧
      (∀ (j : Nat) (w : ℚ), j < i → (vecs.map (sim q))[j]? = some w → w < v) := by
  cases ha : argmaxAux (vecs.map (sim q)) with
  | none =>
    have := argmaxAux_eq_none.mp ha
    rw [List.map_eq_nil_iff] at this
    exact absurd this hne
  | some p =>
    obtain ⟨i, v⟩ := p
    obtain ⟨h1, h2, h3⟩ := argmaxAux_spec _ i v ha
    exact ⟨i, v, rfl, h1, h2, h3⟩

theorem bestMatch_first_max_witness :
    ∃ (i : Nat) (v : ℚ),
      argmaxAux ([[1], [2]].map ((fun _ v => v.headD 0) ([1] : List ℚ))) = some (i, v) ∧
      ([[1], [2]].map ((fun _ v => v.headD 0) ([1] : List ℚ)))[i]? = some v ∧
      (∀ (j : Nat) (w : ℚ),
        ([[1], [2]].map ((fun _ v => v.headD 0) ([1] : List ℚ)))[j]? = some w → w ≤ v) ∧
      (∀ (j : Nat) (w : ℚ), j < i →
        ([[1], [2]].map ((fun _ v => v.headD 0) ([1] : List ℚ)))[j]? = some w → w < v) :=
  bestMatch_first_max (fun _ v => v.headD 0) [1] [[1], [2]] (by decide)

/-- C8: `get_spelling_suggestions` returns, in token order, exactly one
formatted suggestion per lowercased whitespace-separated token that is a
key of the table with a differing corrected form, and nothing for other
tokens (the `filterMap` of the per-token specification `suggOpt`). -/
theorem get_spelling_suggestions_spec (q : String) :
    get_spelling_suggestions q
      = (tokensC (q.data.map lowerChar)).filterMap suggOpt := by
  have h := sugg_foldl_aux (tokensC (q.data.map lowerChar)) []
  simpa [get_spelling_suggestions] using h

/-- C9: a zero query or catalog embedding yields similarity exactly `0`
(the sklearn zero-norm guard divides by `1` instead of raising), and with
an all-zero query every score is `0`, so the best match is index `0`. -/
theorem cosineSim_zero_guard (u v : List ℝ) (hu : ∀ x ∈ u, x = 0) :
    cosineSimR u v = 0 ∧ cosineSimR v u = 0 ∧
    ∀ vecs : List (List ℝ), vecs ≠ [] →
      argmaxAux (vecs.map (cosineSimR u)) = some (0, 0) := by
  refine ⟨cosineSimR_zero_left hu v, cosineSimR_zero_right hu v, ?_⟩
  intro vecs hne
  apply argmaxAux_const
  · intro hmap
    rw [List.map_eq_nil_iff] at hmap
    exact hne hmap
  · intro x hx
    rw [List.mem_map] at hx
    obtain ⟨a, _, rfl⟩ := hx
    exact cosineSimR_zero_left hu a

theorem cosineSim_zero_guard_witness :
    cosineSimR [0] [1] = 0 ∧ cosineSimR [1] [0] = 0 ∧
    argmaxAux ([[3], [4]].map (cosineSimR [0])) = some (0, 0) :=
  ⟨(cosineSim_zero_guard [0] [1] (by simp)).1,
   (cosineSim_zero_guard [0] [1] (by simp)).2.1,
   (cosineSim_zero_guard [0] [1] (by simp)).2.2 [[3], [4]] (by simp)⟩

/-- C10: on every successful run `used_query` is fully lowercase and
whitespace-normalized (its characters are fixed by lowercasing, and it
equals its own tokens rejoined by single spaces, hence no leading or
trailing whitespace); on the failure path `used_query` is the raw input
unchanged. -/
theorem used_query_normalized (P : Predictor) (d : String) :
    ((runPipeline P d).isSome →
      (predict_category P d).used_query.data.map lowerChar
          = (predict_category P d).used_query.data ∧
      joinC (tokensC (predict_category P d).used_query.data)
          = (predict_category P d).used_query.data) ∧
    (runPipeline P d = none → (predict_category P d).used_query = d) := by
  constructor
  · intro h
    obtain ⟨r, hr⟩ := Option.isSome_iff_exists.mp h
    have hu : (predict_category P d).used_query = correct_spelling d := by
      rw [predict_category, hr]
      exact (runPipeline_some hr).2.1
    rw [hu]
    refine ⟨cs_lower_fixed d, ?_⟩
    rw [cs_retokenize]
    rfl
  · intro h
    rw [predict_category, h]
    rfl

theorem used_query_normalized_witness :
    ((predict_category Ptest " MOTR  oil ").used_query.data.map lowerChar
        = (predict_category Ptest " MOTR  oil ").used_query.data ∧
      joinC (tokensC (predict_category Ptest " MOTR  oil ").used_query.data)
        = (predict_category Ptest " MOTR  oil ").used_query.data) ∧
    (predict_category Pfail "x").used_query = "x" :=
  ⟨(used_query_normalized Ptest " MOTR  oil ").1 (by decide),
   (used_query_normalized Pfail "x").2 (by rfl)⟩

end ProductPredictor
